import Mathlib

/-!
Verification of the hybrid retrieval core of the bible-rag backend.

This file is a shallow embedding, in Lean 4, of the retrieval pipeline of
the repository: the cache fingerprint (`backend/cache.py`,
`CacheClient.generate_cache_key`), reciprocal rank fusion
(`backend/search.py`, `rrf_merge`), the cross-encoder reranker
(`backend/reranker.py`, `rerank`) and the orchestrating entry point
(`backend/search.py`, `search_verses`).

Modelling conventions:
* Python `float` scores are modelled as `ℚ` (exact arithmetic).
* Python `dict` (insertion ordered) is modelled as an association list
  (`dictGetD` / `dictSet`).
* Python `sorted(..., reverse=True)` (a stable sort) is modelled with
  `List.insertionSort`, which is stable in the same sense.
* Database and model calls (vector search, full-text search, embedding,
  cross-encoder scoring, Redis) are oracles carried by a `SearchEnv`
  record; SQL `LIMIT`, `WHERE similarity > threshold` and `WHERE rank > 0`
  clauses are applied to the oracle rows inside the embedded functions.
  A raised exception in an external call is modelled by `none`.
* The MD5 digest at the end of `generate_cache_key` is a fixed
  deterministic function of the string it hashes; the embedding returns
  that pre-image string itself, so key equality is decided by it.
-/

/-- Python `str.strip()`: drop leading and trailing whitespace
(`backend/cache.py`, line 64). -/
def pyStrip (s : String) : String :=
  ⟨((s.data.dropWhile Char.isWhitespace).reverse.dropWhile Char.isWhitespace).reverse⟩

/-- Python `str.lower()` (ASCII range, as exercised by the claims)
(`backend/cache.py`, line 64). -/
def pyLower (s : String) : String :=
  ⟨s.data.map Char.toLower⟩

/-- Embedding of `json.dumps(filters or \x7b\x7d, sort_keys=True)` (`backend/cache.py`,
line 66): serialize the filter key/value pairs sorted by key.  Filter
values are modelled as strings; a filter dict has pairwise distinct keys. -/
def jsonFilters (filters : List (String × String)) : String :=
  let sortedPairs := filters.insertionSort (fun a b => a.1 ≤ b.1)
  "\x7b" ++ String.intercalate (", ")
      (sortedPairs.map (fun kv => "\x22" ++ kv.1 ++ "\x22: \x22" ++ kv.2 ++ "\x22"))
    ++ "\x7d"

/-- Embedding of `CacheClient.generate_cache_key` (`backend/cache.py`, lines 47-72):
normalized fingerprint of (query, translations, filters).  The returned
string is the `hash_input` of line 69; the MD5 digest applied to it in the
source is a fixed injective-in-practice function, so it is omitted. -/
def generate_cache_key (query : String) (translations : List String)
    (filters : List (String × String)) : String :=
  let query_normalized := pyLower (pyStrip query)
  let translations_sorted := translations.insertionSort (fun a b => a ≤ b)
  query_normalized ++ "|" ++ String.intercalate (",") translations_sorted
    ++ "|" ++ jsonFilters filters

/-- A ranked list as consumed by `rrf_merge`: `(ref_key, score)` pairs,
sorted by the producing signal's score descending. -/
abbrev Ranked := List (String × ℚ)

/-- Python `scores.get(key, d)` on an insertion-ordered dict modelled as an
association list. -/
def dictGetD (m : List (String × ℚ)) (key : String) (d : ℚ) : ℚ :=
  match m with
  | [] => d
  | (k2, v) :: rest => if k2 = key then v else dictGetD rest key d

/-- Python `scores[key] = v` on an insertion-ordered dict: update in place
if the key exists, append otherwise. -/
def dictSet (m : List (String × ℚ)) (key : String) (v : ℚ) : List (String × ℚ) :=
  match m with
  | [] => [(key, v)]
  | (k2, v2) :: rest =>
      if k2 = key then (key, v) :: rest else (k2, v2) :: dictSet rest key v

/-- The inner loop of `rrf_merge` (`backend/search.py`, lines 515-517):
`for rank, (ref_key, _score) in enumerate(ranked_list):
   scores[ref_key] = scores.get(ref_key, 0.0) + 1.0 / (rank + k)`. -/
def addList (k : ℕ) : ℕ → List (String × ℚ) → Ranked → List (String × ℚ)
  | _, m, [] => m
  | rank, m, (ref, _) :: rest =>
      addList k (rank + 1)
        (dictSet m ref (dictGetD m ref 0 + 1 / ((rank : ℚ) + (k : ℚ)))) rest

/-- The accumulator dict of `rrf_merge` after both loops
(`backend/search.py`, lines 514-517). -/
def rrfAccum (k : ℕ) (ranked_lists : List Ranked) : List (String × ℚ) :=
  ranked_lists.foldl (fun m l => addList k 0 m l) []

/-- Python `sorted(l, key=f, reverse=True)`: stable sort, descending in the
key.  `List.insertionSort` with this relation is sorted, a permutation,
and stable (`List.pair_sublist_insertionSort`), which characterizes the
same output. -/
def sortOnDesc {α : Type} (f : α → ℚ) (l : List α) : List α :=
  l.insertionSort (fun a b => f b ≤ f a)

/-- Embedding of `rrf_merge` (`backend/search.py`, lines 500-518): reciprocal rank
fusion of any number of ranked lists. -/
def rrf_merge (ranked_lists : List Ranked) (k : ℕ) : Ranked :=
  sortOnDesc Prod.snd (rrfAccum k ranked_lists)

/-- Index of the first occurrence of `key` (Python `list.index` /
first-seen position); equals the length when absent. -/
def firstIdx (key : String) : List String → ℕ
  | [] => 0
  | x :: xs => if x = key then 0 else firstIdx key xs + 1

/-- Specification-side RRF contribution of one ranked list to one key:
`1 / (r + k)` at the key's zero-based rank `r`, and nothing when the key
is absent from the list. -/
def rrfContribution (k : ℕ) (key : String) (l : Ranked) : ℚ :=
  if key ∈ l.map Prod.fst
  then 1 / ((firstIdx key (l.map Prod.fst) : ℚ) + (k : ℚ))
  else 0

/-- Application settings as read by the retrieval pipeline.  `config.py`
declares `embedding_model`, `vector_search_lists`, `similarity_threshold`
and `cache_ttl`; the remaining knobs are the attributes of the module
level `settings` object that `search.py` and `reranker.py` dereference
(`overretrieve_factor`, `enable_hybrid_search`, `rrf_k`,
`enable_reranking`, `rerank_top_n`). -/
structure Settings where
  embedding_model : String
  vector_search_lists : ℕ
  similarity_threshold : ℚ
  cache_ttl : ℕ
  overretrieve_factor : ℕ
  enable_hybrid_search : Bool
  rrf_k : ℕ
  enable_reranking : Bool
  rerank_top_n : ℕ
deriving DecidableEq

/-- A row of the `translations` table (`database.py`): only the columns
the search path reads. -/
structure Translation where
  id : String
  abbreviation : String
deriving DecidableEq

/-- One row returned by a retrieval query: the passage-reference key
`book_id:chapter:verse` built at `search.py` lines 593 and 697, the
signal's native score (`similarity` / `rank`) and the payload carried for
assembly, collapsed to the `text` column (the only payload field the
claims inspect). -/
structure Row where
  refKey : String
  score : ℚ
  text : String
deriving DecidableEq

/-- A rerank candidate dict (`search.py` lines 865-869). -/
structure RerankCandidate where
  ref_key : String
  text : String
  rrf_score : ℚ
deriving DecidableEq

/-- A rerank candidate after `rerank` attached `rerank_score`
(`reranker.py` lines 47-48). -/
structure RerankedCandidate where
  ref_key : String
  text : String
  rrf_score : ℚ
  rerank_score : ℚ
deriving DecidableEq

/-- Embedding of `rerank` (`backend/reranker.py`, lines 29-50): score each candidate
with the cross-encoder (`predict` is the model's score for the fixed
query paired with the given text), sort by that score descending
(stable), truncate to `top_k`.  An empty candidate list is returned
unchanged. -/
def rerank (predict : String → ℚ) (candidates : List RerankCandidate)
    (top_k : ℕ) : List RerankedCandidate :=
  if candidates.isEmpty then []
  else
    (sortOnDesc (fun c => c.rerank_score)
      (candidates.map
        (fun c => ⟨c.ref_key, c.text, c.rrf_score, predict c.text⟩))).take top_k

/-- One entry of the `results` list of a search response: identified by
its passage-reference key, with the relevance score and representative
text (translation grouping and enrichment are read through the storage
collaborator and do not alter order or count). -/
structure ResultItem where
  refKey : String
  relevance_score : ℚ
  text : String
deriving DecidableEq

/-- The `search_metadata` dict of a response; keys that a given path does
not emit are `none` / `[]` / `false`. -/
structure SearchMetadata where
  total_results : ℕ
  embedding_model : Option String
  search_method : Option String
  expanded_queries : List String
  error : Option String
  cached : Bool
deriving DecidableEq

/-- A search response: the ordered result list, its metadata, and the
top-level `cached` flag set on a cache hit (`search.py` line 758).
`query_time_ms` (wall clock) is not modelled. -/
structure SearchResponse where
  results : List ResultItem
  search_metadata : SearchMetadata
  cached : Bool
deriving DecidableEq

/-- The parameters of one `search_verses` call (`search.py` lines
716-727).  `expanded_queries=None` and `[]` behave identically in the
source (both falsy, both rendered as `[]` in metadata), so both are
modelled as `[]`.  Enrichment flags do not affect the claims. -/
structure SearchParams where
  query : String
  translations : List String
  max_results : ℕ
  filters : List (String × String)
  use_cache : Bool
  expanded_queries : List String

/-- The external collaborators of one request, as oracles: Redis lookup
(already TTL-filtered: `none` after expiry or on any cache failure), the
translations table, the embeddings row count, the database's answers to
the vector query for the original embedded query (`vectorRows`), to the
full-text query (`ftRows`, shared shape between `_fulltext_search` and
`fulltext_search_verses`), the per-expansion vector answers
(`expansionRows eq = none` models `embed_query` or the search raising for
that expansion), and the cross-encoder (`rerankPredict = none` models the
reranking call raising). -/
structure SearchEnv where
  settings : Settings
  cacheLookup : String → Option SearchResponse
  translationsTable : List Translation
  embeddingsCount : ℕ
  vectorRows : List Row
  ftRows : List Row
  expansionRows : String → Option (List Row)
  rerankPredict : Option (String → ℚ)

/-- The result of `_vector_search` (`search.py` lines 521-609) together
with the `ivfflat.probes` value it sets at line 536. -/
structure VectorSearchCall where
  probes : ℕ
  rows : List Row
deriving DecidableEq

/-- Embedding of `_vector_search` (`backend/search.py`, lines 521-609): sets
`ivfflat.probes = 20` (line 536, a literal in the SQL string), keeps rows
above the similarity threshold (line 557) and applies `LIMIT :limit`
(line 584).  `s` is the module-level `settings` object in scope; the
function reads none of it. -/
def vector_search (s : Settings) (dbRows : List Row)
    (similarity_threshold : ℚ) (limit : ℕ) : VectorSearchCall :=
  ⟨20, (dbRows.filter (fun r => similarity_threshold < r.score)).take limit⟩

/-- Computation `internal_limit = max_results * settings.overretrieve_factor`
(`search.py` line 801). -/
def internalLimit (s : Settings) (max_results : ℕ) : ℕ :=
  max_results * s.overretrieve_factor

/-- Rows of the vector signal on the original query (`search.py` lines
807-811). -/
def vectorSignal (env : SearchEnv) (p : SearchParams) : List Row :=
  (vector_search env.settings env.vectorRows env.settings.similarity_threshold
    (internalLimit env.settings p.max_results)).rows

/-- Rows of the full-text signal: `_fulltext_search` keeps rows with
`rank > 0` and applies `LIMIT` (`search.py` lines 681-689). -/
def ftSignal (env : SearchEnv) (p : SearchParams) : List Row :=
  (env.ftRows.filter (fun r => 0 < r.score)).take
    (internalLimit env.settings p.max_results)

/-- The ranked candidate row lists appended to `ranked_lists`
(`search.py` lines 806-843), in order: vector on the original query if
nonempty, full-text if hybrid search is enabled and nonempty, then one
vector list per expansion that neither raised nor came back empty. -/
def signalsOf (env : SearchEnv) (p : SearchParams) : List (List Row) :=
  (if (vectorSignal env p).isEmpty then [] else [vectorSignal env p])
  ++ (if env.settings.enable_hybrid_search then
        (if (ftSignal env p).isEmpty then [] else [ftSignal env p])
      else [])
  ++ p.expanded_queries.filterMap (fun eq =>
      match env.expansionRows eq with
      | none => none
      | some dbRows =>
          let rows := (vector_search env.settings dbRows
            env.settings.similarity_threshold
            (internalLimit env.settings p.max_results)).rows
          if rows.isEmpty then none else some rows)

/-- The list `ranked_lists` as passed to fusion: each signal projected to
`(ref_key, score)` (`search.py` lines 813, 823, 838). -/
def rankedListsOf (env : SearchEnv) (p : SearchParams) : List Ranked :=
  (signalsOf env p).map (fun rows => rows.map (fun r => (r.refKey, r.score)))

/-- Lookup in `all_row_data` (`search.py` lines 804, 814-815, 824-826,
839-841): the payload for a reference key comes from the first appended
signal that produced it. -/
def rowDataOf (env : SearchEnv) (p : SearchParams) (ref : String) : Option Row :=
  ((signalsOf env p).flatten).find? (fun r => r.refKey == ref)

/-- Step 4 of `search_verses` (`search.py` lines 845-854): RRF-merge when
more than one list, pass the single list through unchanged, or empty. -/
def fusedOf (env : SearchEnv) (p : SearchParams) : Ranked :=
  let rls := rankedListsOf env p
  if 1 < rls.length then rrf_merge rls env.settings.rrf_k
  else
    match rls with
    | l :: _ => l
    | [] => []

/-- The `search_method` chosen alongside fusion (`search.py` lines
845-854), before any `+rerank` suffix. -/
def baseMethodOf (env : SearchEnv) (p : SearchParams) : String :=
  let rls := rankedListsOf env p
  if 1 < rls.length then ("hybrid-rrf")
  else if rls.isEmpty then ("none") else ("semantic")

/-- The rerank candidate dicts (`search.py` lines 860-869): the top slice
of the fused ranking, keeping entries whose payload is present. -/
def rerankCandidatesOf (env : SearchEnv) (p : SearchParams) : List RerankCandidate :=
  let merged := fusedOf env p
  (merged.take (min merged.length env.settings.rerank_top_n)).filterMap
    (fun rs => (rowDataOf env p rs.1).map (fun row => ⟨rs.1, row.text, rs.2⟩))

/-- Step 4b of `search_verses` (`search.py` lines 856-882): the final
`top_refs` list and the final `search_method`.  On the rerank path the
reranked scores replace the RRF scores and the method gains `+rerank`;
when reranking is disabled, has no candidates, or raises
(`rerankPredict = none`), `top_refs` falls back to the fused order
truncated to `max_results` and the method is unchanged. -/
def topRefsAndMethodOf (env : SearchEnv) (p : SearchParams) : Ranked × String :=
  let merged := fusedOf env p
  let m := baseMethodOf env p
  if env.settings.enable_reranking && !merged.isEmpty then
    let candidates := rerankCandidatesOf env p
    if !candidates.isEmpty then
      match env.rerankPredict with
      | some predict =>
          ((rerank predict candidates p.max_results).map
            (fun c => (c.ref_key, c.rerank_score)), m ++ "+rerank")
      | none => (merged.take p.max_results, m)
    else (merged.take p.max_results, m)
  else (merged.take p.max_results, m)

/-- Step 5 of `search_verses` (`search.py` lines 884-929): one result per
`top_refs` entry whose payload exists, in `top_refs` order. -/
def resultsOf (env : SearchEnv) (p : SearchParams) : List ResultItem :=
  (topRefsAndMethodOf env p).1.filterMap
    (fun rs => (rowDataOf env p rs.1).map
      (fun row => ⟨rs.1, rs.2, row.text⟩))

/-- The response assembled on the hybrid path (`search.py` lines
939-952). -/
def hybridResponseOf (env : SearchEnv) (p : SearchParams) : SearchResponse :=
  ⟨resultsOf env p,
   ⟨(resultsOf env p).length, some env.settings.embedding_model,
    some (topRefsAndMethodOf env p).2, p.expanded_queries, none, false⟩,
   false⟩

/-- The `verse_groups` dict of `fulltext_search_verses` (`search.py`
lines 138-163): group rows by reference key, the first row for a key
fixing its entry and order. -/
def dedupByKeyAux (seen : List String) : List Row → List Row
  | [] => []
  | r :: rest =>
      if r.refKey ∈ seen then dedupByKeyAux seen rest
      else r :: dedupByKeyAux (r.refKey :: seen) rest

/-- Embedding of `fulltext_search_verses` (`backend/search.py`, lines 28-194): the
fallback full-text path.  Its SQL keeps rows with `rank > 0` and applies
`LIMIT :max_results` (lines 123-131); rows are then grouped by reference
key. -/
def fulltext_search_verses (env : SearchEnv) (p : SearchParams) : SearchResponse :=
  let results := (dedupByKeyAux []
      ((env.ftRows.filter (fun r => 0 < r.score)).take p.max_results)).map
    (fun r => (⟨r.refKey, r.score, r.text⟩ : ResultItem))
  ⟨results, ⟨results.length, none, some ("full-text"), [], none, false⟩, false⟩

/-- Embedding of `search_verses` (`backend/search.py`, lines 716-958): cache lookup,
translation resolution (returning the explanatory error response when
nothing resolves, lines 771-779), index-population check routing to the
full-text-only path (lines 781-798), otherwise the hybrid pipeline. -/
def search_verses (env : SearchEnv) (p : SearchParams) : SearchResponse :=
  let cache_key := generate_cache_key p.query p.translations p.filters
  match (if p.use_cache then env.cacheLookup cache_key else none) with
  | some cached => ⟨cached.results, cached.search_metadata, true⟩
  | none =>
      let resolved := env.translationsTable.filter
        (fun t => p.translations.contains t.abbreviation)
      if resolved.isEmpty then
        ⟨[], ⟨0, none, none, [], some ("No valid translations found"), false⟩, false⟩
      else if env.embeddingsCount = 0 then fulltext_search_verses env p
      else hybridResponseOf env p

/-- The evolution of a dict's key list while a sequence of keys is
inserted (`dictSet` appends an unseen key, leaves a seen key in place). -/
def keysFold : List String → List String → List String
  | ks, [] => ks
  | ks, key :: rest => keysFold (if key ∈ ks then ks else ks ++ [key]) rest

/-- Closed form of the accumulator built from a single duplicate-free
ranked list starting at rank `r`: each key scored `1 / (rank + k)`. -/
def rankWith (k : ℕ) : ℕ → Ranked → Ranked
  | _, [] => []
  | r, (ref, _) :: rest => (ref, 1 / ((r : ℚ) + (k : ℚ))) :: rankWith k (r + 1) rest

/-- Concrete settings used by the concrete instantiations below
(defaults of the source where declared). -/
def settingsW : Settings :=
  ⟨"intfloat/multilingual-e5-large", 100, 7/10, 86400, 10, false, 60, true, 5⟩

/-- Variant of `settingsW` with a different partition count, for the probe-count
check. -/
def settingsW5 : Settings :=
  ⟨"intfloat/multilingual-e5-large", 5, 7/10, 86400, 10, false, 60, true, 5⟩

/-- A concrete environment on the hybrid path whose reranking call
raises: populated index, one resolvable translation, two vector rows,
`rerankPredict = none`. -/
def envRerankFail : SearchEnv :=
  ⟨settingsW, fun _ => none, [⟨"t1", "NIV"⟩], 1,
   [⟨"k1", 9/10, "text one"⟩, ⟨"k2", 8/10, "text two"⟩], [],
   fun _ => none, none⟩

/-- A concrete request for `envRerankFail`. -/
def pRerankFail : SearchParams := ⟨"love", ["NIV"], 1, [], false, []⟩

/-- A concrete environment with an empty vector index and one resolvable
translation. -/
def envEmptyIndex : SearchEnv :=
  ⟨settingsW, fun _ => none, [⟨"t1", "NIV"⟩], 0, [],
   [⟨"k1", 1/2, "For God so loved the world"⟩], fun _ => none, none⟩

/-- A concrete request for `envEmptyIndex`. -/
def pEmptyIndex : SearchParams := ⟨"love", ["NIV"], 10, [], true, []⟩

/-- A concrete request whose translation does not resolve. -/
def pNoTranslation : SearchParams := ⟨"test query", ["INVALID"], 10, [], false, []⟩

/-- A concrete cached response. -/
def respCached : SearchResponse :=
  ⟨[⟨"k9", 3/10, "cached text"⟩], ⟨1, none, some ("semantic"), [], none, false⟩, false⟩

/-- A concrete environment whose cache lookup always hits with
`respCached`. -/
def envCacheHit : SearchEnv :=
  ⟨settingsW, fun _ => some respCached, [], 0, [], [], fun _ => none, none⟩

/-- A concrete request with caching enabled and no expansions. -/
def pNoExp : SearchParams := ⟨"q", ["NIV"], 10, [], true, []⟩

/-- Variant of `pNoExp` with a different expansion set. -/
def pWithExp : SearchParams := ⟨"q", ["NIV"], 10, [], true, ["alt phrasing"]⟩

/-- Concrete ranked lists: two signals sharing the key b. -/
def rlsW : List Ranked := [[("a", 9), ("b", 8)], [("b", 7)]]

/-- Concrete ranked lists with an exact RRF score tie between x and y. -/
def rlsTie : List Ranked := [[("x", 5), ("y", 4)], [("y", 4), ("x", 3)]]

/-- A concrete single ranked list. -/
def singleW : Ranked := [("a", 5), ("b", 4)]

theorem dictGetD_dictSet_self (m : List (String × ℚ)) (key : String) (v d : ℚ) :
    dictGetD (dictSet m key v) key d = v := by
  induction m with
  | nil => simp [dictSet, dictGetD]
  | cons p rest ih =>
      obtain ⟨k2, v2⟩ := p
      by_cases h : k2 = key
      · simp [dictSet, h, dictGetD]
      · simp [dictSet, h, dictGetD, ih]

theorem dictGetD_dictSet_ne (m : List (String × ℚ)) (key k2 : String) (v d : ℚ)
    (h : k2 ≠ key) :
    dictGetD (dictSet m key v) k2 d = dictGetD m k2 d := by
  induction m with
  | nil => simp [dictSet, dictGetD, Ne.symm h]
  | cons p rest ih =>
      obtain ⟨k0, v0⟩ := p
      by_cases h0 : k0 = key
      · subst h0
        simp [dictSet, dictGetD, Ne.symm h]
      · by_cases h2 : k0 = k2 <;> simp [dictSet, h0, dictGetD, h2, h, ih]

theorem map_fst_dictSet (m : List (String × ℚ)) (key : String) (v : ℚ) :
    (dictSet m key v).map Prod.fst =
      if key ∈ m.map Prod.fst then m.map Prod.fst
      else m.map Prod.fst ++ [key] := by
  induction m with
  | nil => simp [dictSet]
  | cons p rest ih =>
      obtain ⟨k0, v0⟩ := p
      by_cases h0 : k0 = key
      · subst h0; simp [dictSet]
      · by_cases hmem : key ∈ rest.map Prod.fst <;>
          simp [dictSet, h0, ih, hmem, Ne.symm h0]

theorem dictGetD_eq_of_mem (m : List (String × ℚ)) (key : String) (s d : ℚ)
    (hnd : (m.map Prod.fst).Nodup) (hm : (key, s) ∈ m) :
    dictGetD m key d = s := by
  induction m with
  | nil => cases hm
  | cons p rest ih =>
      obtain ⟨k0, v0⟩ := p
      simp only [List.map_cons, List.nodup_cons] at hnd
      rcases List.mem_cons.mp hm with heq | htail
      · cases heq
        simp [dictGetD]
      · have hne : k0 ≠ key := by
          intro e
          subst e
          exact hnd.1 (List.mem_map.mpr ⟨(k0, s), htail, rfl⟩)
        simp [dictGetD, hne, ih hnd.2 htail]

theorem keysFold_append (ks l1 l2 : List String) :
    keysFold ks (l1 ++ l2) = keysFold (keysFold ks l1) l2 := by
  induction l1 generalizing ks with
  | nil => simp [keysFold]
  | cons x xs ih => simp [keysFold, ih]

theorem mem_keysFold (ks l : List String) (key : String) :
    key ∈ keysFold ks l ↔ key ∈ ks ∨ key ∈ l := by
  induction l generalizing ks with
  | nil => simp [keysFold]
  | cons x xs ih =>
      by_cases hx : x ∈ ks
      · rw [keysFold, if_pos hx, ih]
        constructor
        · rintro (h | h)
          · exact Or.inl h
          · exact Or.inr (List.mem_cons_of_mem _ h)
        · rintro (h | h)
          · exact Or.inl h
          · rcases List.mem_cons.mp h with rfl | h2
            · exact Or.inl hx
            · exact Or.inr h2
      · rw [keysFold, if_neg hx, ih]
        simp [List.mem_append, or_assoc]

theorem keysFold_prefix (ks l : List String) :
    ∃ rest, keysFold ks l = ks ++ rest := by
  induction l generalizing ks with
  | nil => exact ⟨[], by simp [keysFold]⟩
  | cons x xs ih =>
      by_cases hx : x ∈ ks
      · rw [keysFold, if_pos hx]; exact ih ks
      · rw [keysFold, if_neg hx]
        obtain ⟨r, hr⟩ := ih (ks ++ [x])
        exact ⟨[x] ++ r, by simp [hr]⟩

theorem nodup_keysFold (ks l : List String) (h : ks.Nodup) :
    (keysFold ks l).Nodup := by
  induction l generalizing ks with
  | nil => simpa [keysFold]
  | cons x xs ih =>
      by_cases hx : x ∈ ks
      · rw [keysFold, if_pos hx]; exact ih ks h
      · rw [keysFold, if_neg hx]
        exact ih _ (by simp [List.nodup_append, h, hx])

theorem map_fst_addList (k r : ℕ) (m : List (String × ℚ)) (l : Ranked) :
    (addList k r m l).map Prod.fst =
      keysFold (m.map Prod.fst) (l.map Prod.fst) := by
  induction l generalizing r m with
  | nil => simp [addList, keysFold]
  | cons p rest ih =>
      obtain ⟨ref, s⟩ := p
      simp only [addList, List.map_cons, keysFold]
      rw [ih, map_fst_dictSet]

theorem dictGetD_addList (k r : ℕ) (m : List (String × ℚ)) (l : Ranked)
    (key : String) (hnd : (l.map Prod.fst).Nodup) :
    dictGetD (addList k r m l) key 0 =
      dictGetD m key 0 +
        (if key ∈ l.map Prod.fst
         then 1 / (((r + firstIdx key (l.map Prod.fst) : ℕ) : ℚ) + (k : ℚ))
         else 0) := by
  induction l generalizing r m with
  | nil => simp [addList]
  | cons p rest ih =>
      obtain ⟨ref, s⟩ := p
      simp only [List.map_cons, List.nodup_cons] at hnd
      simp only [addList]
      rw [ih _ _ hnd.2]
      by_cases h : key = ref
      · subst h
        rw [dictGetD_dictSet_self]
        simp [hnd.1, firstIdx]
      · rw [dictGetD_dictSet_ne _ _ _ _ _ h]
        by_cases hmem : key ∈ rest.map Prod.fst
        · have hrne : ref ≠ key := fun e => h e.symm
          simp only [hmem, if_pos, List.mem_cons, h, false_or, if_true,
            firstIdx, hrne, if_false]
          have harith : (r + 1 + firstIdx key (rest.map Prod.fst) : ℕ)
              = (r + (firstIdx key (rest.map Prod.fst) + 1) : ℕ) := by omega
          rw [harith]
          simp [hmem]
        · have hrne : ref ≠ key := fun e => h e.symm
          simp [hmem, h, hrne]

theorem map_fst_foldl_addList (k : ℕ) (rls : List Ranked) :
    ∀ m, ((rls.foldl (fun m l => addList k 0 m l) m)).map Prod.fst =
      keysFold (m.map Prod.fst) ((rls.map (fun l => l.map Prod.fst)).flatten) := by
  induction rls with
  | nil => intro m; simp [keysFold]
  | cons l rls ih =>
      intro m
      simp only [List.foldl_cons, List.map_cons, List.flatten_cons]
      rw [ih, keysFold_append, map_fst_addList]

theorem map_fst_rrfAccum (k : ℕ) (rls : List Ranked) :
    (rrfAccum k rls).map Prod.fst =
      keysFold [] ((rls.map (fun l => l.map Prod.fst)).flatten) := by
  have h := map_fst_foldl_addList k rls []
  simpa [rrfAccum] using h

theorem mem_map_fst_rrfAccum (k : ℕ) (rls : List Ranked) (key : String) :
    key ∈ (rrfAccum k rls).map Prod.fst ↔ ∃ l ∈ rls, key ∈ l.map Prod.fst := by
  rw [map_fst_rrfAccum, mem_keysFold]
  simp [List.mem_flatten]

theorem nodup_map_fst_rrfAccum (k : ℕ) (rls : List Ranked) :
    ((rrfAccum k rls).map Prod.fst).Nodup := by
  rw [map_fst_rrfAccum]
  exact nodup_keysFold _ _ List.nodup_nil

theorem dictGetD_foldl_addList (k : ℕ) (rls : List Ranked) (key : String) :
    ∀ m, (∀ l ∈ rls, (l.map Prod.fst).Nodup) →
      dictGetD (rls.foldl (fun m l => addList k 0 m l) m) key 0 =
        dictGetD m key 0 + (rls.map (fun l => rrfContribution k key l)).sum := by
  induction rls with
  | nil => intro m _; simp
  | cons l rls ih =>
      intro m hnd
      simp only [List.foldl_cons, List.map_cons, List.sum_cons]
      rw [ih _ (fun l2 h2 => hnd l2 (List.mem_cons_of_mem _ h2)),
        dictGetD_addList _ _ _ _ _ (hnd l (List.mem_cons_self _ _))]
      simp only [rrfContribution, Nat.zero_add]
      ring

theorem dictGetD_rrfAccum (k : ℕ) (rls : List Ranked) (key : String)
    (hnd : ∀ l ∈ rls, (l.map Prod.fst).Nodup) :
    dictGetD (rrfAccum k rls) key 0 =
      (rls.map (fun l => rrfContribution k key l)).sum := by
  have h := dictGetD_foldl_addList k rls key [] hnd
  simpa [rrfAccum, dictGetD] using h

theorem sortOnDesc_perm {α : Type} (f : α → ℚ) (l : List α) :
    List.Perm (sortOnDesc f l) l :=
  List.perm_insertionSort _ _

theorem sortOnDesc_sorted {α : Type} (f : α → ℚ) (l : List α) :
    (sortOnDesc f l).Sorted (fun a b => f b ≤ f a) := by
  haveI : IsTotal α (fun a b => f b ≤ f a) := ⟨fun a b => le_total (f b) (f a)⟩
  haveI : IsTrans α (fun a b => f b ≤ f a) :=
    ⟨fun _ _ _ h1 h2 => le_trans h2 h1⟩
  exact List.sorted_insertionSort _ _

theorem sortOnDesc_pair_sublist {α : Type} (f : α → ℚ) {x y : α} {l : List α}
    (h : List.Sublist [x, y] l) (hxy : f y ≤ f x) :
    List.Sublist [x, y] (sortOnDesc f l) :=
  List.pair_sublist_insertionSort hxy h

theorem sortOnDesc_of_sorted {α : Type} (f : α → ℚ) (l : List α)
    (h : l.Sorted (fun a b => f b ≤ f a)) : sortOnDesc f l = l :=
  h.insertionSort_eq

/-- C1: for ranked lists with duplicate-free keys and smoothing constant
k ≥ 1, `rrf_merge` returns a list sorted by non-increasing RRF score in
which every passage-reference key appearing in any input list appears
exactly once, each key's score being the sum, over the input lists
containing it, of `1 / (r + k)` at its zero-based rank `r` (a key absent
from a list contributes nothing); zero input lists yield `[]`, not an
error. -/
theorem rrf_merge_correct (rls : List Ranked) (k : ℕ) (hk : 1 ≤ k)
    (hnd : ∀ l ∈ rls, (l.map Prod.fst).Nodup) :
    ((rrf_merge rls k).Sorted (fun p q : String × ℚ => q.2 ≤ p.2))
    ∧ ((rrf_merge rls k).map Prod.fst).Nodup
    ∧ (∀ key, key ∈ (rrf_merge rls k).map Prod.fst ↔
        ∃ l ∈ rls, key ∈ l.map Prod.fst)
    ∧ (∀ p ∈ rrf_merge rls k,
        p.2 = (rls.map (fun l => rrfContribution k p.1 l)).sum)
    ∧ rrf_merge [] k = [] := by
  have hperm : List.Perm (rrf_merge rls k) (rrfAccum k rls) :=
    sortOnDesc_perm _ _
  have hpm : List.Perm ((rrf_merge rls k).map Prod.fst)
      ((rrfAccum k rls).map Prod.fst) := hperm.map _
  refine ⟨sortOnDesc_sorted _ _,
    hpm.nodup_iff.mpr (nodup_map_fst_rrfAccum k rls), ?_, ?_, rfl⟩
  · intro key
    rw [hpm.mem_iff, mem_map_fst_rrfAccum]
  · intro p hp
    obtain ⟨key, s⟩ := p
    have hpacc : (key, s) ∈ rrfAccum k rls := hperm.mem_iff.mp hp
    have h1 := dictGetD_eq_of_mem (rrfAccum k rls) key s 0
      (nodup_map_fst_rrfAccum k rls) hpacc
    have h2 := dictGetD_rrfAccum k rls key hnd
    rw [h1] at h2
    exact h2

/-- Concrete instantiation of `rrf_merge_correct` at `rlsW` with k = 60:
the hypotheses hold and the conclusion follows. -/
theorem rrf_merge_correct_witness :
    (1 ≤ 60 ∧ (∀ l ∈ rlsW, (l.map Prod.fst).Nodup))
    ∧ ((rrf_merge rlsW 60).Sorted (fun p q : String × ℚ => q.2 ≤ p.2)
      ∧ ((rrf_merge rlsW 60).map Prod.fst).Nodup
      ∧ (∀ key, key ∈ (rrf_merge rlsW 60).map Prod.fst ↔
          ∃ l ∈ rlsW, key ∈ l.map Prod.fst)
      ∧ (∀ p ∈ rrf_merge rlsW 60,
          p.2 = (rlsW.map (fun l => rrfContribution 60 p.1 l)).sum)
      ∧ rrf_merge [] 60 = []) :=
  ⟨⟨by norm_num, by decide⟩, rrf_merge_correct rlsW 60 (by norm_num) (by decide)⟩

theorem firstIdx_decomp (key : String) (J : List String) (h : key ∈ J) :
    J = J.take (firstIdx key J) ++ key :: J.drop (firstIdx key J + 1)
    ∧ key ∉ J.take (firstIdx key J) := by
  induction J with
  | nil => cases h
  | cons x xs ih =>
      by_cases hx : x = key
      · subst hx
        simp [firstIdx]
      · have hmem : key ∈ xs := by
          rcases List.mem_cons.mp h with h2 | h2
          · exact absurd h2.symm hx
          · exact h2
        obtain ⟨h1, h2⟩ := ih hmem
        constructor
        · rw [firstIdx, if_neg hx]
          simp only [List.take_succ_cons, List.drop_succ_cons, List.cons_append]
          exact congrArg (List.cons x) h1
        · rw [firstIdx, if_neg hx]
          simp only [List.take_succ_cons]
          intro hc
          rcases List.mem_cons.mp hc with h3 | h3
          · exact hx h3.symm
          · exact h2 h3

theorem not_mem_take_of_le_firstIdx (key : String) (J : List String) (i : ℕ)
    (h : i ≤ firstIdx key J) : key ∉ J.take i := by
  induction J generalizing i with
  | nil => simp
  | cons x xs ih =>
      cases i with
      | zero => simp
      | succ n =>
          by_cases hx : x = key
          · subst hx
            rw [firstIdx, if_pos rfl] at h
            exact absurd h (by omega)
          · rw [firstIdx, if_neg hx] at h
            simp only [List.take_succ_cons]
            intro hc
            rcases List.mem_cons.mp hc with h3 | h3
            · exact hx h3.symm
            · exact ih n (Nat.le_of_succ_le_succ h) h3

theorem sublist_entries_of_sublist_keys (m : List (String × ℚ))
    (a b : String) (sa sb : ℚ) (hnd : (m.map Prod.fst).Nodup)
    (hk : List.Sublist [a, b] (m.map Prod.fst))
    (ha : (a, sa) ∈ m) (hb : (b, sb) ∈ m) :
    List.Sublist [(a, sa), (b, sb)] m := by
  have hab : a ≠ b := by
    have hd : ([a, b] : List String).Nodup := List.Nodup.sublist hk hnd
    simp only [List.nodup_cons, List.mem_singleton] at hd
    exact hd.1
  induction m with
  | nil => cases ha
  | cons p rest ih =>
      obtain ⟨k0, v0⟩ := p
      simp only [List.map_cons, List.nodup_cons] at hnd
      have hk2 : List.Sublist [a, b] (k0 :: rest.map Prod.fst) := by
        simpa using hk
      by_cases hk0a : k0 = a
      · subst hk0a
        have h2 : List.Sublist [b] (rest.map Prod.fst) := by
          cases hk2 with
          | cons₂ _ h2 => exact h2
          | cons _ h2 =>
              exact absurd (h2.subset (by simp)) hnd.1
        have hbrest : (b, sb) ∈ rest := by
          rcases List.mem_cons.mp hb with h3 | h3
          · exact absurd (congrArg Prod.fst h3) (Ne.symm hab)
          · exact h3
        have hsa : sa = v0 := by
          rcases List.mem_cons.mp ha with h3 | h3
          · exact congrArg Prod.snd h3
          · exact absurd (List.mem_map.mpr ⟨(k0, sa), h3, rfl⟩) hnd.1
        subst hsa
        exact List.Sublist.cons₂ _ (List.singleton_sublist.mpr hbrest)
      · have h2 : List.Sublist [a, b] (rest.map Prod.fst) := by
          cases hk2 with
          | cons₂ _ h2 => exact absurd rfl hk0a
          | cons _ h2 => exact h2
        have harest : a ∈ rest.map Prod.fst := h2.subset (by simp)
        have hbrest : b ∈ rest.map Prod.fst := h2.subset (by simp)
        have hatl : (a, sa) ∈ rest := by
          rcases List.mem_cons.mp ha with h3 | h3
          · exact absurd (congrArg Prod.fst h3).symm hk0a
          · exact h3
        have hbtl : (b, sb) ∈ rest := by
          rcases List.mem_cons.mp hb with h3 | h3
          · have hb0 : b = k0 := congrArg Prod.fst h3
            exact absurd (hb0 ▸ hbrest) hnd.1
          · exact h3
        exact List.Sublist.cons _ (ih hnd.2 h2 hatl hbtl)

theorem firstIdx_lt_of_pair_sublist (L : List String) (a b : String)
    (h : List.Sublist [a, b] L) (hnd : L.Nodup) :
    firstIdx a L < firstIdx b L := by
  induction L with
  | nil => exact absurd (List.sublist_nil.mp h) (by simp)
  | cons x xs ih =>
      simp only [List.nodup_cons] at hnd
      cases h with
      | cons₂ _ h2 =>
          have hbxs : b ∈ xs := List.singleton_sublist.mp h2
          have hba : ¬(a = b) := by
            intro e
            exact hnd.1 (e ▸ hbxs)
          rw [firstIdx, if_pos rfl, firstIdx, if_neg hba]
          omega
      | cons _ h2 =>
          have haxs : a ∈ xs := h2.subset (by simp)
          have hbxs : b ∈ xs := h2.subset (by simp)
          have hxa : ¬(x = a) := fun e => hnd.1 (e ▸ haxs)
          have hxb : ¬(x = b) := fun e => hnd.1 (e ▸ hbxs)
          rw [firstIdx, if_neg hxa, firstIdx, if_neg hxb]
          exact Nat.succ_lt_succ (ih h2 hnd.2)

/-- C2: keys whose accumulated RRF scores tie appear in `rrf_merge`
output in first-seen order over the inputs — the key encountered first
when iterating the input lists in order (first list, then order of
appearance within each list) precedes the other.  Determinism for
identical inputs is immediate since the embedded `rrf_merge` is a
function. -/
theorem rrf_merge_tie_first_seen (rls : List Ranked) (k : ℕ)
    (a b : String) (s : ℚ)
    (ha : (a, s) ∈ rrf_merge rls k) (hb : (b, s) ∈ rrf_merge rls k)
    (hfs : firstIdx a ((rls.map (fun l => l.map Prod.fst)).flatten)
         < firstIdx b ((rls.map (fun l => l.map Prod.fst)).flatten)) :
    firstIdx a ((rrf_merge rls k).map Prod.fst)
      < firstIdx b ((rrf_merge rls k).map Prod.fst) := by
  set J := (rls.map (fun l => l.map Prod.fst)).flatten with hJ
  have hperm : List.Perm (rrf_merge rls k) (rrfAccum k rls) :=
    sortOnDesc_perm _ _
  have haacc : (a, s) ∈ rrfAccum k rls := hperm.mem_iff.mp ha
  have hbacc : (b, s) ∈ rrfAccum k rls := hperm.mem_iff.mp hb
  have hab : a ≠ b := by
    intro e
    subst e
    exact lt_irrefl _ hfs
  have hkeysJ : (rrfAccum k rls).map Prod.fst = keysFold [] J :=
    map_fst_rrfAccum k rls
  have haJ : a ∈ J := by
    have : a ∈ (rrfAccum k rls).map Prod.fst :=
      List.mem_map.mpr ⟨(a, s), haacc, rfl⟩
    rw [hkeysJ, mem_keysFold] at this
    simpa using this
  have hbJ : b ∈ J := by
    have : b ∈ (rrfAccum k rls).map Prod.fst :=
      List.mem_map.mpr ⟨(b, s), hbacc, rfl⟩
    rw [hkeysJ, mem_keysFold] at this
    simpa using this
  obtain ⟨hdecomp, _⟩ := firstIdx_decomp a J haJ
  have hbT : b ∉ J.take (firstIdx a J) :=
    not_mem_take_of_le_firstIdx b J (firstIdx a J) (le_of_lt hfs)
  have hbR : b ∈ J.drop (firstIdx a J + 1) := by
    rw [hdecomp] at hbJ
    rcases List.mem_append.mp hbJ with h3 | h3
    · exact absurd h3 hbT
    · rcases List.mem_cons.mp h3 with h4 | h4
      · exact absurd h4 (Ne.symm hab)
      · exact h4
  have hsplit : keysFold [] J =
      keysFold (keysFold [] (J.take (firstIdx a J) ++ [a]))
        (J.drop (firstIdx a J + 1)) := by
    conv_lhs => rw [hdecomp]
    rw [show J.take (firstIdx a J) ++ a :: J.drop (firstIdx a J + 1)
        = (J.take (firstIdx a J) ++ [a]) ++ J.drop (firstIdx a J + 1) by simp,
      keysFold_append]
  have haseen : a ∈ keysFold [] (J.take (firstIdx a J) ++ [a]) := by
    rw [mem_keysFold]
    simp
  have hbseen : b ∉ keysFold [] (J.take (firstIdx a J) ++ [a]) := by
    rw [mem_keysFold]
    simp only [List.not_mem_nil, List.mem_append, List.mem_singleton, false_or]
    rintro (h3 | h3)
    · exact hbT h3
    · exact hab h3.symm
  obtain ⟨rest, hrest⟩ :=
    keysFold_prefix (keysFold [] (J.take (firstIdx a J) ++ [a]))
      (J.drop (firstIdx a J + 1))
  have hbrest : b ∈ rest := by
    have : b ∈ keysFold (keysFold [] (J.take (firstIdx a J) ++ [a]))
        (J.drop (firstIdx a J + 1)) := by
      rw [mem_keysFold]
      exact Or.inr hbR
    rw [hrest] at this
    rcases List.mem_append.mp this with h3 | h3
    · exact absurd h3 hbseen
    · exact h3
  have hkeys : List.Sublist [a, b] ((rrfAccum k rls).map Prod.fst) := by
    rw [hkeysJ, hsplit, hrest]
    exact List.Sublist.append (List.singleton_sublist.mpr haseen)
      (List.singleton_sublist.mpr hbrest)
  have hentries : List.Sublist [(a, s), (b, s)] (rrfAccum k rls) :=
    sublist_entries_of_sublist_keys _ a b s s
      (nodup_map_fst_rrfAccum k rls) hkeys haacc hbacc
  have hout : List.Sublist [(a, s), (b, s)] (rrf_merge rls k) :=
    sortOnDesc_pair_sublist Prod.snd hentries (le_refl s)
  have houtkeys : List.Sublist [a, b] ((rrf_merge rls k).map Prod.fst) := by
    have := hout.map Prod.fst
    simpa using this
  have hndout : ((rrf_merge rls k).map Prod.fst).Nodup :=
    (hperm.map Prod.fst).nodup_iff.mpr (nodup_map_fst_rrfAccum k rls)
  exact firstIdx_lt_of_pair_sublist _ a b houtkeys hndout

/-- Concrete instantiation of `rrf_merge_tie_first_seen`: in `rlsTie` the
keys x and y tie at 1/60 + 1/61 and x is seen first, so x precedes y. -/
theorem rrf_merge_tie_first_seen_witness :
    (("x", (121 : ℚ)/3660) ∈ rrf_merge rlsTie 60
      ∧ ("y", (121 : ℚ)/3660) ∈ rrf_merge rlsTie 60
      ∧ firstIdx ("x") ((rlsTie.map (fun l => l.map Prod.fst)).flatten)
          < firstIdx ("y") ((rlsTie.map (fun l => l.map Prod.fst)).flatten))
    ∧ firstIdx ("x") ((rrf_merge rlsTie 60).map Prod.fst)
        < firstIdx ("y") ((rrf_merge rlsTie 60).map Prod.fst) := by
  have hx : ("x", (121 : ℚ)/3660) ∈ rrf_merge rlsTie 60 := by
    simp only [rlsTie, rrf_merge, rrfAccum, addList, dictGetD, dictSet,
      sortOnDesc, List.foldl, List.insertionSort, List.orderedInsert,
      String.reduceEq, reduceIte]
    norm_num
  have hy : ("y", (121 : ℚ)/3660) ∈ rrf_merge rlsTie 60 := by
    simp only [rlsTie, rrf_merge, rrfAccum, addList, dictGetD, dictSet,
      sortOnDesc, List.foldl, List.insertionSort, List.orderedInsert,
      String.reduceEq, reduceIte]
    norm_num
  have hfs : firstIdx ("x") ((rlsTie.map (fun l => l.map Prod.fst)).flatten)
      < firstIdx ("y") ((rlsTie.map (fun l => l.map Prod.fst)).flatten) := by
    decide
  exact ⟨⟨hx, hy, hfs⟩,
    rrf_merge_tie_first_seen rlsTie 60 ("x") ("y") ((121 : ℚ)/3660) hx hy hfs⟩

theorem dictGetD_of_not_mem (m : List (String × ℚ)) (key : String) (d : ℚ)
    (h : key ∉ m.map Prod.fst) : dictGetD m key d = d := by
  induction m with
  | nil => rfl
  | cons p rest ih =>
      obtain ⟨k0, v0⟩ := p
      simp only [List.map_cons, List.mem_cons] at h
      push_neg at h
      simp [dictGetD, Ne.symm h.1, ih h.2]

theorem dictSet_of_not_mem (m : List (String × ℚ)) (key : String) (v : ℚ)
    (h : key ∉ m.map Prod.fst) : dictSet m key v = m ++ [(key, v)] := by
  induction m with
  | nil => rfl
  | cons p rest ih =>
      obtain ⟨k0, v0⟩ := p
      simp only [List.map_cons, List.mem_cons] at h
      push_neg at h
      simp [dictSet, Ne.symm h.1, ih h.2]

theorem map_fst_rankWith (k r : ℕ) (l : Ranked) :
    (rankWith k r l).map Prod.fst = l.map Prod.fst := by
  induction l generalizing r with
  | nil => simp [rankWith]
  | cons p rest ih =>
      obtain ⟨ref, s⟩ := p
      simp [rankWith, ih]

theorem addList_eq_append_rankWith (k r : ℕ) (m : List (String × ℚ))
    (l : Ranked) (hnd : (l.map Prod.fst).Nodup)
    (hdisj : ∀ key ∈ l.map Prod.fst, key ∉ m.map Prod.fst) :
    addList k r m l = m ++ rankWith k r l := by
  induction l generalizing r m with
  | nil => simp [addList, rankWith]
  | cons p rest ih =>
      obtain ⟨ref, s⟩ := p
      simp only [List.map_cons, List.nodup_cons] at hnd
      have hrefm : ref ∉ m.map Prod.fst := hdisj ref (by simp)
      simp only [addList]
      rw [dictGetD_of_not_mem m ref 0 hrefm, dictSet_of_not_mem m ref _ hrefm]
      rw [ih (r + 1) _ hnd.2 ?hdisj2]
      · simp [rankWith]
      case hdisj2 =>
        intro key hkey
        simp only [List.map_append, List.map_cons, List.map_nil,
          List.mem_append, List.mem_cons]
        push_neg
        refine ⟨?_, ?_, ?_⟩
        · exact hdisj key (List.mem_cons_of_mem _ hkey)
        · intro e
          exact hnd.1 (e ▸ hkey)
        · exact List.not_mem_nil key

theorem mem_rankWith_val (k r : ℕ) (l : Ranked) (p : String × ℚ)
    (hp : p ∈ rankWith k r l) :
    ∃ i, r ≤ i ∧ p.2 = 1 / ((i : ℚ) + (k : ℚ)) := by
  induction l generalizing r with
  | nil => cases hp
  | cons q rest ih =>
      obtain ⟨ref, s⟩ := q
      rw [rankWith] at hp
      rcases List.mem_cons.mp hp with h | h
      · exact ⟨r, le_refl r, by rw [h]⟩
      · obtain ⟨i, hi, hv⟩ := ih (r + 1) h
        exact ⟨i, by omega, hv⟩

theorem sorted_rankWith (k r : ℕ) (l : Ranked) (hk : 1 ≤ k) :
    (rankWith k r l).Sorted (fun p q : String × ℚ => q.2 ≤ p.2) := by
  induction l generalizing r with
  | nil => simp [rankWith, List.Sorted]
  | cons q rest ih =>
      obtain ⟨ref, s⟩ := q
      rw [rankWith, List.sorted_cons]
      refine ⟨?_, ih (r + 1)⟩
      intro p hp
      obtain ⟨i, hi, hv⟩ := mem_rankWith_val k (r + 1) rest p hp
      rw [hv]
      have hkq : (1 : ℚ) ≤ (k : ℚ) := by exact_mod_cast hk
      have h1 : (0 : ℚ) < (r : ℚ) + (k : ℚ) := by
        have := Nat.cast_nonneg (α := ℚ) r
        linarith
      have h2 : (r : ℚ) + (k : ℚ) ≤ (i : ℚ) + (k : ℚ) := by
        have : (r : ℚ) ≤ (i : ℚ) := by exact_mod_cast (by omega : r ≤ i)
        linarith
      exact one_div_le_one_div_of_le h1 h2

/-- C9: fusion of a single ranked list (duplicate-free keys, k ≥ 1) is a
pass-through: `rrf_merge` on one list preserves the relative order of its
entries, and the orchestrator's single-list shortcut, which returns the
list itself, therefore produces the same ordering. -/
theorem rrf_merge_single_passthrough (l : Ranked) (k : ℕ) (hk : 1 ≤ k)
    (hnd : (l.map Prod.fst).Nodup) :
    ((rrf_merge [l] k).map Prod.fst = l.map Prod.fst)
    ∧ (∀ (env : SearchEnv) (p : SearchParams),
        rankedListsOf env p = [l] → fusedOf env p = l) := by
  constructor
  · have haccum : rrfAccum k [l] = rankWith k 0 l := by
      have h := addList_eq_append_rankWith k 0 [] l hnd (by simp)
      simpa [rrfAccum] using h
    rw [rrf_merge, haccum,
      sortOnDesc_of_sorted _ _ (sorted_rankWith k 0 l hk), map_fst_rankWith]
  · intro env p h
    simp [fusedOf, h]

/-- Concrete instantiation of `rrf_merge_single_passthrough` at
`singleW` with k = 60. -/
theorem rrf_merge_single_passthrough_witness :
    (1 ≤ 60 ∧ (singleW.map Prod.fst).Nodup)
    ∧ (rrf_merge [singleW] 60).map Prod.fst = singleW.map Prod.fst :=
  ⟨⟨by norm_num, by decide⟩,
    (rrf_merge_single_passthrough singleW 60 (by norm_num) (by decide)).1⟩

theorem insertionSort_eq_of_perm_strings (t1 t2 : List String)
    (h : List.Perm t1 t2) :
    t1.insertionSort (fun a b => a ≤ b) = t2.insertionSort (fun a b => a ≤ b) := by
  haveI : IsTotal String (fun a b => a ≤ b) := ⟨fun a b => le_total a b⟩
  haveI : IsTrans String (fun a b => a ≤ b) :=
    ⟨fun _ _ _ h1 h2 => le_trans h1 h2⟩
  haveI : IsAntisymm String (fun a b => a ≤ b) :=
    ⟨fun _ _ h1 h2 => le_antisymm h1 h2⟩
  have hp : List.Perm (t1.insertionSort (fun a b => a ≤ b))
      (t2.insertionSort (fun a b => a ≤ b)) :=
    (List.perm_insertionSort _ t1).trans
      (h.trans (List.perm_insertionSort _ t2).symm)
  have hs1 : (t1.insertionSort (fun a b => a ≤ b)).Sorted
      (fun a b : String => a ≤ b) := List.sorted_insertionSort _ t1
  have hs2 : (t2.insertionSort (fun a b => a ≤ b)).Sorted
      (fun a b : String => a ≤ b) := List.sorted_insertionSort _ t2
  exact List.eq_of_perm_of_sorted hp hs1 hs2

theorem eq_of_perm_of_sorted_by_key (l1 : List (String × String)) :
    ∀ l2, List.Perm l1 l2 →
      l1.Sorted (fun a b : String × String => a.1 ≤ b.1) →
      l2.Sorted (fun a b : String × String => a.1 ≤ b.1) →
      (l1.map Prod.fst).Nodup → l1 = l2 := by
  induction l1 with
  | nil =>
      intro l2 h _ _ _
      cases l2 with
      | nil => rfl
      | cons b t2 => simpa using h.length_eq
  | cons a t1 ih =>
      intro l2 h hs1 hs2 hnd
      cases l2 with
      | nil => simpa using h.length_eq
      | cons b t2 =>
          simp only [List.map_cons, List.nodup_cons] at hnd
          rw [List.sorted_cons] at hs1 hs2
          have hab : a = b := by
            have hain : a ∈ b :: t2 := h.subset (List.mem_cons_self _ _)
            have hbin : b ∈ a :: t1 := h.symm.subset (List.mem_cons_self _ _)
            rcases List.mem_cons.mp hbin with hba | hbt1
            · exact hba.symm
            · rcases List.mem_cons.mp hain with hab2 | hat2
              · exact hab2
              · have h1 : a.1 ≤ b.1 := hs1.1 b hbt1
                have h2 : b.1 ≤ a.1 := hs2.1 a hat2
                have hkey : b.1 = a.1 := le_antisymm h2 h1
                exact absurd (hkey ▸ List.mem_map.mpr ⟨b, hbt1, rfl⟩) hnd.1
          subst hab
          have htails : List.Perm t1 t2 := h.cons_inv
          rw [ih t2 htails hs1.2 hs2.2 hnd.2]

theorem sortPairs_eq_of_perm (f1 f2 : List (String × String))
    (h : List.Perm f1 f2) (hnd : (f1.map Prod.fst).Nodup) :
    f1.insertionSort (fun a b => a.1 ≤ b.1)
      = f2.insertionSort (fun a b => a.1 ≤ b.1) := by
  haveI : IsTotal (String × String) (fun a b => a.1 ≤ b.1) :=
    ⟨fun a b => le_total a.1 b.1⟩
  haveI : IsTrans (String × String) (fun a b => a.1 ≤ b.1) :=
    ⟨fun _ _ _ h1 h2 => le_trans h1 h2⟩
  refine eq_of_perm_of_sorted_by_key _ _ ?_ ?_ ?_ ?_
  · exact (List.perm_insertionSort _ f1).trans
      (h.trans (List.perm_insertionSort _ f2).symm)
  · exact List.sorted_insertionSort _ f1
  · exact List.sorted_insertionSort _ f2
  · exact ((List.perm_insertionSort _ f1).map Prod.fst).nodup_iff.mpr hnd

/-- C5 (amended): the cache fingerprint is independent of translation
order (any permutation) and of filter pair order (for duplicate-free
filter keys), and normalizes the query by lowercasing and stripping
leading and trailing whitespace — queries equal after that normalization
fingerprint identically.  (Internal whitespace is NOT normalized; see the
counterexample.) -/
theorem generate_cache_key_normalized (q1 q2 : String)
    (t1 t2 : List String) (f1 f2 : List (String × String))
    (hq : pyLower (pyStrip q1) = pyLower (pyStrip q2))
    (ht : List.Perm t1 t2) (hf : List.Perm f1 f2)
    (hfk : (f1.map Prod.fst).Nodup) :
    generate_cache_key q1 t1 f1 = generate_cache_key q2 t2 f2 := by
  unfold generate_cache_key jsonFilters
  rw [hq, insertionSort_eq_of_perm_strings t1 t2 ht,
    sortPairs_eq_of_perm f1 f2 hf hfk]

/-- Concrete instantiation of `generate_cache_key_normalized`: a query
differing in case and outer whitespace, swapped translations and swapped
filter pairs fingerprint identically. -/
theorem generate_cache_key_normalized_witness :
    (pyLower (pyStrip ("  Love ")) = pyLower (pyStrip ("love"))
      ∧ List.Perm ["NIV", "ESV"] ["ESV", "NIV"]
      ∧ List.Perm [("testament", "NT"), ("genre", "law")]
          [("genre", "law"), ("testament", "NT")]
      ∧ (([("testament", "NT"), ("genre", "law")].map
            (Prod.fst : String × String → String)).Nodup))
    ∧ generate_cache_key ("  Love ") ["NIV", "ESV"]
          [("testament", "NT"), ("genre", "law")]
        = generate_cache_key ("love") ["ESV", "NIV"]
          [("genre", "law"), ("testament", "NT")] :=
  ⟨⟨by decide, by decide, by decide, by decide⟩,
    generate_cache_key_normalized _ _ _ _ _ _ (by decide) (by decide)
      (by decide) (by decide)⟩

/-- C5 counterexample: two queries differing only in internal whitespace
fingerprint differently — `str.strip()` removes only leading/trailing
whitespace, so the claim's full whitespace-insensitivity fails. -/
theorem generate_cache_key_whitespace_cx :
    generate_cache_key ("a b") ["NIV"] [] ≠ generate_cache_key ("a  b") ["NIV"] [] := by
  decide

/-- C8 counterexample: `_vector_search` sets `ivfflat.probes = 20` for
every configuration; with the partition-count setting at 5 it still
probes 20, so the probe count is not taken from configuration. -/
theorem vector_search_probes_cx :
    (vector_search settingsW5 [] (7/10) 10).probes = 20
    ∧ (vector_search settingsW [] (7/10) 10).probes = 20
    ∧ settingsW5.vector_search_lists ≠ settingsW.vector_search_lists
    ∧ (vector_search settingsW5 [] (7/10) 10).probes
        ≠ settingsW5.vector_search_lists :=
  ⟨rfl, rfl, by decide, by decide⟩

/-- C8 (amended): the number of index partitions probed by
`_vector_search` is the hardcoded literal 20 (`SET ivfflat.probes = 20`),
identical for every settings value, every row set, every threshold and
every limit; no probe-count knob exists in `Settings`. -/
theorem vector_search_probes_const (s : Settings) (dbRows : List Row)
    (thr : ℚ) (limit : ℕ) :
    (vector_search s dbRows thr limit).probes = 20 := rfl

/-- C10: `generate_cache_key` is not passed `expanded_queries`
(`search.py` line 752), so two calls differing only in the expansion set
share a fingerprint, and with caching enabled a response stored under
that fingerprint is returned unchanged (marked cached) for either call
until the lookup stops returning it (TTL expiry, modelled inside the
cache oracle). -/
theorem cache_key_ignores_expanded_queries (env : SearchEnv)
    (p1 p2 : SearchParams) (r : SearchResponse)
    (hq : p1.query = p2.query) (ht : p1.translations = p2.translations)
    (hf : p1.filters = p2.filters)
    (hc1 : p1.use_cache = true) (hc2 : p2.use_cache = true)
    (hhit : env.cacheLookup
        (generate_cache_key p1.query p1.translations p1.filters) = some r) :
    generate_cache_key p1.query p1.translations p1.filters
      = generate_cache_key p2.query p2.translations p2.filters
    ∧ search_verses env p1 = ⟨r.results, r.search_metadata, true⟩
    ∧ search_verses env p2 = ⟨r.results, r.search_metadata, true⟩ := by
  have hkey : generate_cache_key p1.query p1.translations p1.filters
      = generate_cache_key p2.query p2.translations p2.filters := by
    rw [hq, ht, hf]
  refine ⟨hkey, ?_, ?_⟩
  · simp [search_verses, hc1, hhit]
  · simp [search_verses, hc2, ← hkey, hhit]

/-- Concrete instantiation of `cache_key_ignores_expanded_queries`:
`pNoExp` and `pWithExp` differ only in `expanded_queries` and both get
the cached `respCached` back. -/
theorem cache_key_ignores_expanded_queries_witness :
    (pNoExp.query = pWithExp.query
      ∧ pNoExp.translations = pWithExp.translations
      ∧ pNoExp.filters = pWithExp.filters
      ∧ pNoExp.use_cache = true ∧ pWithExp.use_cache = true
      ∧ envCacheHit.cacheLookup (generate_cache_key pNoExp.query
          pNoExp.translations pNoExp.filters) = some respCached)
    ∧ (generate_cache_key pNoExp.query pNoExp.translations pNoExp.filters
        = generate_cache_key pWithExp.query pWithExp.translations pWithExp.filters
      ∧ search_verses envCacheHit pNoExp
          = ⟨respCached.results, respCached.search_metadata, true⟩
      ∧ search_verses envCacheHit pWithExp
          = ⟨respCached.results, respCached.search_metadata, true⟩) :=
  ⟨⟨rfl, rfl, rfl, rfl, rfl, rfl⟩,
    cache_key_ignores_expanded_queries envCacheHit pNoExp pWithExp respCached
      rfl rfl rfl rfl rfl rfl⟩

/-- C6: when nothing in the translations table matches the requested
abbreviations (and the cache does not answer first), `search_verses`
returns normally — it is a total function, no exception — with an empty
result list, a zero total count and the explanatory error field in the
metadata. -/
theorem search_verses_no_valid_translations (env : SearchEnv)
    (p : SearchParams)
    (hmiss : p.use_cache = false ∨ env.cacheLookup
        (generate_cache_key p.query p.translations p.filters) = none)
    (hres : ∀ t ∈ env.translationsTable,
        p.translations.contains t.abbreviation = false) :
    search_verses env p =
      ⟨[], ⟨0, none, none, [], some ("No valid translations found"), false⟩,
        false⟩ := by
  have hscrut : (if p.use_cache then env.cacheLookup
      (generate_cache_key p.query p.translations p.filters) else none)
      = none := by
    rcases hmiss with h | h
    · simp [h]
    · cases hcu : p.use_cache <;> simp [h]
  have hres2 : ∀ t ∈ env.translationsTable,
      t.abbreviation ∉ p.translations := by
    intro t ht
    simpa using hres t ht
  simp [search_verses, hscrut, hres2]
  intro x hx hmem
  exact absurd hmem (hres2 x hx)

/-- Concrete instantiation of `search_verses_no_valid_translations` at a
request whose only translation abbreviation is unknown. -/
theorem search_verses_no_valid_translations_witness :
    ((pNoTranslation.use_cache = false ∨ envEmptyIndex.cacheLookup
        (generate_cache_key pNoTranslation.query pNoTranslation.translations
          pNoTranslation.filters) = none)
      ∧ (∀ t ∈ envEmptyIndex.translationsTable,
          pNoTranslation.translations.contains t.abbreviation = false))
    ∧ search_verses envEmptyIndex pNoTranslation =
        ⟨[], ⟨0, none, none, [], some ("No valid translations found"), false⟩,
          false⟩ :=
  ⟨⟨Or.inl rfl, by decide⟩,
    search_verses_no_valid_translations envEmptyIndex pNoTranslation
      (Or.inl rfl) (by decide)⟩

/-- C7: with a populated translations table and an empty embeddings table
(and no cache answer), `search_verses` does not error (total function):
it routes to the full-text-only path and reports
search_method = "full-text" with no error field. -/
theorem search_verses_empty_index_fulltext (env : SearchEnv)
    (p : SearchParams)
    (hmiss : p.use_cache = false ∨ env.cacheLookup
        (generate_cache_key p.query p.translations p.filters) = none)
    (hres : ∃ t ∈ env.translationsTable,
        p.translations.contains t.abbreviation = true)
    (hemb : env.embeddingsCount = 0) :
    search_verses env p = fulltext_search_verses env p
    ∧ (search_verses env p).search_metadata.search_method = some ("full-text")
    ∧ (search_verses env p).search_metadata.error = none
    ∧ (search_verses env p).search_metadata.total_results
        = (search_verses env p).results.length := by
  have hscrut : (if p.use_cache then env.cacheLookup
      (generate_cache_key p.query p.translations p.filters) else none)
      = none := by
    rcases hmiss with h | h
    · simp [h]
    · cases hcu : p.use_cache <;> simp [h]
  obtain ⟨t, ht, htc⟩ := hres
  have hne : env.translationsTable.filter
      (fun t => p.translations.contains t.abbreviation) ≠ [] := by
    have : t ∈ env.translationsTable.filter
        (fun t => p.translations.contains t.abbreviation) :=
      List.mem_filter.mpr ⟨ht, htc⟩
    exact List.ne_nil_of_mem this
  have hsv : search_verses env p = fulltext_search_verses env p := by
    simp only [search_verses, hscrut, hemb, if_true]
    simp only [List.isEmpty_iff]
    rw [if_neg hne]
  refine ⟨hsv, ?_, ?_, ?_⟩ <;> rw [hsv] <;> simp [fulltext_search_verses]

/-- Concrete instantiation of `search_verses_empty_index_fulltext` at a
request for NIV against an environment with zero embeddings. -/
theorem search_verses_empty_index_fulltext_witness :
    ((pEmptyIndex.use_cache = false ∨ envEmptyIndex.cacheLookup
        (generate_cache_key pEmptyIndex.query pEmptyIndex.translations
          pEmptyIndex.filters) = none)
      ∧ (∃ t ∈ envEmptyIndex.translationsTable,
          pEmptyIndex.translations.contains t.abbreviation = true)
      ∧ envEmptyIndex.embeddingsCount = 0)
    ∧ (search_verses envEmptyIndex pEmptyIndex
        = fulltext_search_verses envEmptyIndex pEmptyIndex
      ∧ (search_verses envEmptyIndex pEmptyIndex).search_metadata.search_method
          = some ("full-text")
      ∧ (search_verses envEmptyIndex pEmptyIndex).search_metadata.error = none
      ∧ (search_verses envEmptyIndex pEmptyIndex).search_metadata.total_results
          = (search_verses envEmptyIndex pEmptyIndex).results.length) :=
  ⟨⟨Or.inr rfl, ⟨⟨"t1", "NIV"⟩, by decide, by decide⟩, rfl⟩,
    search_verses_empty_index_fulltext envEmptyIndex pEmptyIndex
      (Or.inr rfl) ⟨⟨"t1", "NIV"⟩, by decide, by decide⟩ rfl⟩

theorem length_dedupByKeyAux_le (seen : List String) (l : List Row) :
    (dedupByKeyAux seen l).length ≤ l.length := by
  induction l generalizing seen with
  | nil => simp [dedupByKeyAux]
  | cons r rest ih =>
      rw [dedupByKeyAux]
      by_cases h : r.refKey ∈ seen
      · simp only [if_pos h]
        exact le_trans (ih seen) (by simp)
      · simp only [if_neg h, List.length_cons]
        exact Nat.succ_le_succ (ih _)

theorem length_rerank_le (predict : String → ℚ)
    (candidates : List RerankCandidate) (top_k : ℕ) :
    (rerank predict candidates top_k).length ≤ top_k := by
  rw [rerank]
  by_cases h : candidates.isEmpty
  · simp [h]
  · simp only [if_neg h]
    exact List.length_take_le _ _

theorem length_topRefs_le (env : SearchEnv) (p : SearchParams) :
    (topRefsAndMethodOf env p).1.length ≤ p.max_results := by
  simp only [topRefsAndMethodOf]
  by_cases h1 : (env.settings.enable_reranking && !(fusedOf env p).isEmpty) = true
  · rw [if_pos h1]
    by_cases h2 : (!(rerankCandidatesOf env p).isEmpty) = true
    · rw [if_pos h2]
      cases hp : env.rerankPredict with
      | some predict =>
          dsimp only
          rw [List.length_map]
          exact length_rerank_le _ _ _
      | none =>
          dsimp only
          exact List.length_take_le _ _
    · rw [if_neg h2]
      exact List.length_take_le _ _
  · rw [if_neg h1]
    exact List.length_take_le _ _

/-- C4: on every non-cache-answered path — configuration error, full-text
fallback, RRF-only hybrid, and reranked hybrid — `search_verses` returns
at most `max_results` results, even when the fused candidate set is
larger. -/
theorem search_verses_max_results_bound (env : SearchEnv) (p : SearchParams)
    (hmiss : p.use_cache = false ∨ env.cacheLookup
        (generate_cache_key p.query p.translations p.filters) = none) :
    (search_verses env p).results.length ≤ p.max_results := by
  have hscrut : (if p.use_cache then env.cacheLookup
      (generate_cache_key p.query p.translations p.filters) else none)
      = none := by
    rcases hmiss with h | h
    · simp [h]
    · cases hcu : p.use_cache <;> simp [h]
  simp only [search_verses, hscrut]
  split
  · simp
  · split
    · simp only [fulltext_search_verses]
      calc (List.map (fun r => (⟨r.refKey, r.score, r.text⟩ : ResultItem))
            (dedupByKeyAux []
              ((env.ftRows.filter (fun r => 0 < r.score)).take p.max_results))).length
          = (dedupByKeyAux []
              ((env.ftRows.filter (fun r => 0 < r.score)).take p.max_results)).length :=
            List.length_map _ _
        _ ≤ ((env.ftRows.filter (fun r => 0 < r.score)).take p.max_results).length :=
            length_dedupByKeyAux_le _ _
        _ ≤ p.max_results := List.length_take_le _ _
    · simp only [hybridResponseOf]
      calc (resultsOf env p).length
          ≤ (topRefsAndMethodOf env p).1.length := by
            rw [resultsOf]
            exact List.length_filterMap_le _ _
        _ ≤ p.max_results := length_topRefs_le env p

/-- Concrete instantiation of `search_verses_max_results_bound`: the
rerank-failure environment with max_results = 1 yields at most one
result. -/
theorem search_verses_max_results_bound_witness :
    (pRerankFail.use_cache = false ∨ envRerankFail.cacheLookup
        (generate_cache_key pRerankFail.query pRerankFail.translations
          pRerankFail.filters) = none)
    ∧ (search_verses envRerankFail pRerankFail).results.length
        ≤ pRerankFail.max_results :=
  ⟨Or.inl rfl,
    search_verses_max_results_bound envRerankFail pRerankFail (Or.inl rfl)⟩

theorem rowData_isSome_of_mem_fused (env : SearchEnv) (p : SearchParams)
    (key : String) (h : key ∈ (fusedOf env p).map Prod.fst) :
    (rowDataOf env p key).isSome := by
  have hex : ∃ l ∈ rankedListsOf env p, key ∈ l.map Prod.fst := by
    simp only [fusedOf] at h
    by_cases hlen : 1 < (rankedListsOf env p).length
    · rw [if_pos hlen] at h
      rw [rrf_merge] at h
      have hmem : key ∈ (rrfAccum env.settings.rrf_k
          (rankedListsOf env p)).map Prod.fst :=
        ((sortOnDesc_perm Prod.snd _).map Prod.fst).mem_iff.mp h
      exact (mem_map_fst_rrfAccum _ _ key).mp hmem
    · rw [if_neg hlen] at h
      cases hrls : rankedListsOf env p with
      | nil => rw [hrls] at h; simp at h
      | cons l rest =>
          rw [hrls] at h
          exact ⟨l, List.mem_cons_self _ _, h⟩
  obtain ⟨l, hl, hkey⟩ := hex
  rw [rankedListsOf] at hl
  obtain ⟨rows, hrows, hleq⟩ := List.mem_map.mp hl
  obtain ⟨r, hr, he⟩ : ∃ r ∈ rows, r.refKey = key := by
    rw [← hleq] at hkey
    simp only [List.map_map] at hkey
    obtain ⟨r, hr, he⟩ := List.mem_map.mp hkey
    exact ⟨r, hr, he⟩
  rw [rowDataOf, List.find?_isSome]
  exact ⟨r, List.mem_flatten.mpr ⟨rows, hrows, hr⟩, by simp [he]⟩

theorem map_refKey_filterMapRows (env : SearchEnv) (p : SearchParams)
    (l : Ranked) (hall : ∀ rs ∈ l, (rowDataOf env p rs.1).isSome) :
    ((l.filterMap (fun rs => (rowDataOf env p rs.1).map
        (fun row => (⟨rs.1, rs.2, row.text⟩ : ResultItem)))).map
          (fun ri => ri.refKey))
      = l.map Prod.fst := by
  induction l with
  | nil => simp
  | cons rs rest ih =>
      obtain ⟨row, hrow⟩ := Option.isSome_iff_exists.mp
        (hall rs (List.mem_cons_self _ _))
      rw [List.filterMap_cons]
      rw [hrow]
      simp only [Option.map_some']
      simp [ih (fun x hx => hall x (List.mem_cons_of_mem _ hx))]

/-- C3: when reranking is enabled with a positive top-n, the fused list is
nonempty and the reranking call raises (`rerankPredict = none`),
`search_verses` surfaces no error: the response's error field is empty,
its result ordering equals the pre-rerank RRF fused ordering truncated to
`max_results`, and `search_method` is the pre-rerank method — the
`+rerank` marker is omitted, which is how the response notes that rerank
was skipped (the failure is only logged in the source). -/
theorem search_verses_rerank_failure_fallback (env : SearchEnv)
    (p : SearchParams)
    (hmiss : p.use_cache = false ∨ env.cacheLookup
        (generate_cache_key p.query p.translations p.filters) = none)
    (hres : ∃ t ∈ env.translationsTable,
        p.translations.contains t.abbreviation = true)
    (hemb : env.embeddingsCount ≠ 0)
    (hrr : env.settings.enable_reranking = true)
    (hfused : fusedOf env p ≠ [])
    (htopn : 1 ≤ env.settings.rerank_top_n)
    (hraise : env.rerankPredict = none) :
    (search_verses env p).results.map (fun ri => ri.refKey)
        = ((fusedOf env p).take p.max_results).map Prod.fst
    ∧ (search_verses env p).search_metadata.search_method
        = some (baseMethodOf env p)
    ∧ (search_verses env p).search_metadata.error = none := by
  have hscrut : (if p.use_cache then env.cacheLookup
      (generate_cache_key p.query p.translations p.filters) else none)
      = none := by
    rcases hmiss with h | h
    · simp [h]
    · cases hcu : p.use_cache <;> simp [h]
  obtain ⟨t, ht, htc⟩ := hres
  have hne : env.translationsTable.filter
      (fun t => p.translations.contains t.abbreviation) ≠ [] :=
    List.ne_nil_of_mem (List.mem_filter.mpr ⟨ht, htc⟩)
  have hsv : search_verses env p = hybridResponseOf env p := by
    simp only [search_verses, hscrut, List.isEmpty_iff]
    rw [if_neg hne, if_neg hemb]
  obtain ⟨rs, rest, hfe⟩ : ∃ rs rest, fusedOf env p = rs :: rest := by
    cases hf : fusedOf env p with
    | nil => exact absurd hf hfused
    | cons a l => exact ⟨a, l, rfl⟩
  have hrsmem : rs ∈ (fusedOf env p).take
      (min (fusedOf env p).length env.settings.rerank_top_n) := by
    rw [hfe]
    have h1 : 1 ≤ min (rs :: rest : Ranked).length
        env.settings.rerank_top_n := by
      simp only [List.length_cons]
      omega
    cases hm : min (rs :: rest : Ranked).length env.settings.rerank_top_n with
    | zero => omega
    | succ n => simp
  have hsome := rowData_isSome_of_mem_fused env p rs.1
    (by rw [hfe]; exact List.mem_map.mpr ⟨rs, List.mem_cons_self _ _, rfl⟩)
  obtain ⟨row, hrow⟩ := Option.isSome_iff_exists.mp hsome
  have hcmem : (⟨rs.1, row.text, rs.2⟩ : RerankCandidate)
      ∈ rerankCandidatesOf env p := by
    simp only [rerankCandidatesOf]
    exact List.mem_filterMap.mpr ⟨rs, hrsmem, by rw [hrow]; rfl⟩
  have hcand : ((rerankCandidatesOf env p).isEmpty) = false := by
    cases hc : rerankCandidatesOf env p with
    | nil => rw [hc] at hcmem; cases hcmem
    | cons _ _ => rfl
  have hfne : ((fusedOf env p).isEmpty) = false := by
    rw [hfe]; rfl
  have htop : topRefsAndMethodOf env p
      = ((fusedOf env p).take p.max_results, baseMethodOf env p) := by
    simp only [topRefsAndMethodOf, hrr, hfne, Bool.not_false, Bool.and_self,
      if_true, hcand, hraise]
  refine ⟨?_, ?_, ?_⟩
  · rw [hsv]
    show (resultsOf env p).map (fun ri => ri.refKey) = _
    rw [resultsOf, htop]
    exact map_refKey_filterMapRows env p _ (fun rs2 h2 =>
      rowData_isSome_of_mem_fused env p rs2.1
        (List.mem_map.mpr ⟨rs2, List.take_subset _ _ h2, rfl⟩))
  · rw [hsv]
    show some (topRefsAndMethodOf env p).2 = _
    rw [htop]
  · rw [hsv]
    rfl

/-- Concrete instantiation of `search_verses_rerank_failure_fallback`:
`envRerankFail` has a populated index, a nonempty fused list and a
raising reranker, and the response falls back to the truncated fused
ordering with the pre-rerank method. -/
theorem search_verses_rerank_failure_fallback_witness :
    (envRerankFail.rerankPredict = none
      ∧ fusedOf envRerankFail pRerankFail ≠ []
      ∧ envRerankFail.settings.enable_reranking = true
      ∧ envRerankFail.embeddingsCount ≠ 0
      ∧ 1 ≤ envRerankFail.settings.rerank_top_n)
    ∧ ((search_verses envRerankFail pRerankFail).results.map
          (fun ri => ri.refKey)
        = ((fusedOf envRerankFail pRerankFail).take
            pRerankFail.max_results).map Prod.fst
      ∧ (search_verses envRerankFail pRerankFail).search_metadata.search_method
          = some (baseMethodOf envRerankFail pRerankFail)
      ∧ (search_verses envRerankFail pRerankFail).search_metadata.error
          = none) := by
  have hfused : fusedOf envRerankFail pRerankFail ≠ [] := by
    have hcomp : fusedOf envRerankFail pRerankFail
        = [("k1", (9 : ℚ)/10), ("k2", (8 : ℚ)/10)] := by
      norm_num [fusedOf, rankedListsOf, signalsOf, vectorSignal, ftSignal,
        vector_search, internalLimit, envRerankFail, pRerankFail, settingsW,
        List.filter]
    rw [hcomp]
    exact List.cons_ne_nil _ _
  exact ⟨⟨rfl, hfused, rfl, by decide, by decide⟩,
    search_verses_rerank_failure_fallback envRerankFail pRerankFail
      (Or.inl rfl) ⟨⟨"t1", "NIV"⟩, by decide, by decide⟩ (by decide) rfl
      hfused (by decide) rfl⟩
